import Mathlib

/-!
Verification of the `everyonenorth` pipeline (package `core` plus the
`util.RunCommand` helper) against its natural-language specification.

The Go code is shallowly embedded: Go strings are modelled as `String`
(processed through their `List Char` data, one `Char` per byte — all inputs
of interest are ASCII, where Go's byte-wise operations and the per-`Char`
operations here coincide), external command invocations become an explicit
environment record of their results, and file output becomes an explicit
state value.  Fallible Go functions returning `(T, error)` become
`Except String T`.
-/

set_option autoImplicit false

namespace EveryoneNorth

/-! ### Byte/character primitives shared by the embedded functions

Character comparisons are written on `Char.toNat`, mirroring Go's byte
comparisons. -/

instance exceptDecEq {ε α : Type} [DecidableEq ε] [DecidableEq α] :
    DecidableEq (Except ε α) := fun x y =>
  match x, y with
  | .ok a, .ok b =>
    if h : a = b then .isTrue (by rw [h])
    else .isFalse (by intro hh; cases hh; exact h rfl)
  | .error a, .error b =>
    if h : a = b then .isTrue (by rw [h])
    else .isFalse (by intro hh; cases hh; exact h rfl)
  | .ok _, .error _ => .isFalse (by intro hh; cases hh)
  | .error _, .ok _ => .isFalse (by intro hh; cases hh)

theorem charToNat_inj {a b : Char} (h : a.toNat = b.toNat) : a = b := by
  apply Char.eq_of_val_eq
  apply UInt32.eq_of_val_eq
  apply Fin.eq_of_val_eq
  exact h

/-- Embeds `unicode.IsSpace` restricted to the Latin-1 range that Go handles inline:
space, tab, newline, vertical tab, form feed, carriage return, NEL, NBSP. -/
def goIsSpace (c : Char) : Bool :=
  c.toNat == 32 || c.toNat == 9 || c.toNat == 10 || c.toNat == 11 ||
  c.toNat == 12 || c.toNat == 13 || c.toNat == 133 || c.toNat == 160

/-- Embeds `strings.TrimSpace` on the character list. -/
def trimSpaceL (l : List Char) : List Char :=
  ((l.dropWhile goIsSpace).reverse.dropWhile goIsSpace).reverse

/-- Embeds `strings.TrimSpace`. -/
def trimSpace (s : String) : String := ⟨trimSpaceL s.data⟩

/-- Embeds `strings.HasPrefix` on character lists (second argument is the prefix). -/
def hasPrefixL : List Char → List Char → Bool
  | _, [] => true
  | [], _ :: _ => false
  | x :: xs, y :: ys => x.toNat == y.toNat && hasPrefixL xs ys

/-- Embeds `strings.HasSuffix` on character lists (second argument is the suffix). -/
def hasSuffixL (l suf : List Char) : Bool :=
  hasPrefixL l.reverse suf.reverse

/-- Embeds `strings.Contains` for a single-byte substring. -/
def containsC (c : Char) : List Char → Bool
  | [] => false
  | x :: xs => x.toNat == c.toNat || containsC c xs

/-- Embeds `strings.Cut` / `split(s, sep, cutc=true)` for a single-byte separator:
the part before the first occurrence and the part after it (the separator is
removed; if the separator is absent the whole input is the first part). -/
def cutChar (c : Char) : List Char → List Char × List Char
  | [] => ([], [])
  | x :: xs =>
    if x.toNat == c.toNat then ([], xs)
    else
      let p := cutChar c xs
      (x :: p.1, p.2)

/-- The authority/path division in `net/url.parse`: the part before the first
occurrence of the separator, and the remainder starting with the separator
(`authority, rest = authority[:i], authority[i:]`). -/
def cutKeep (c : Char) : List Char → List Char × List Char
  | [] => ([], [])
  | x :: xs =>
    if x.toNat == c.toNat then ([], x :: xs)
    else
      let p := cutKeep c xs
      (x :: p.1, p.2)

/-- Embeds `strings.Split` for a single-byte separator. -/
def splitChar (c : Char) : List Char → List (List Char)
  | [] => [[]]
  | x :: xs =>
    if x.toNat == c.toNat then [] :: splitChar c xs
    else
      match splitChar c xs with
      | [] => [[x]]
      | p :: ps => (x :: p) :: ps

/-- Embeds `parts[len(parts)-1]` for a nonempty list of parts. -/
def lastPart : List (List Char) → List Char
  | [] => []
  | [p] => p
  | _ :: ps => lastPart ps

/-- Embeds `strings.TrimSuffix` on character lists. -/
def trimSuffixL (l suf : List Char) : List Char :=
  if hasSuffixL l suf then l.take (l.length - suf.length) else l

/-! ### Summary Parser (`parseLogOutput`, core.go lines 71-87) -/

/-- The `Author` record of core.go (zero value of unset fields is `""`). -/
structure Author where
  Name : String
  CommitCount : String
  RepoName : String
  SearchURL : String
deriving DecidableEq

/-- Embeds `dropCR` from `bufio.ScanLines`: drop a terminal carriage return. -/
def dropCR (l : List Char) : List Char :=
  if hasSuffixL l ['\r'] then l.dropLast else l

/-- Token stream of `bufio.Scanner` with the `ScanLines` split function:
lines are terminated by `'\n'` (the terminator is not part of the token, a
final `'\r'` is dropped), and a nonempty unterminated tail is a final token.
The accumulator holds the current line reversed. -/
def splitLinesAux : List Char → List Char → List String
  | acc, [] => if acc = [] then [] else [⟨dropCR acc.reverse⟩]
  | acc, c :: rest =>
    if c.toNat == 10 then ⟨dropCR acc.reverse⟩ :: splitLinesAux [] rest
    else splitLinesAux (c :: acc) rest

/-- All scanner lines of the input. -/
def splitLines (s : String) : List String := splitLinesAux [] s.data

/-- Embeds `strings.Fields` on character lists: maximal runs of non-space
characters, splitting around `unicode.IsSpace` runs. -/
def fieldsGo : List Char → List (List Char)
  | [] => []
  | c :: rest =>
    let fs := fieldsGo rest
    if goIsSpace c then fs
    else
      match rest with
      | [] => [[c]]
      | d :: _ =>
        if goIsSpace d then [c] :: fs
        else
          match fs with
          | [] => [[c]]
          | w :: ws => (c :: w) :: ws

/-- Embeds `strings.Fields`. -/
def goFields (s : String) : List String := (fieldsGo s.data).map (⟨·⟩)

/-- Embeds `strings.Join(elems, " ")`. -/
def joinSpace : List String → String
  | [] => ""
  | [s] => s
  | s :: rest => s ++ " " ++ joinSpace rest

/-- Embeds `parseLogOutput` (core.go lines 71-87): scan the shortlog output line by
line; every line with at least two whitespace-delimited fields becomes an
`Author` whose commit count is the first field and whose name is the
remaining fields joined by single spaces.  The Go function's error result is
always `nil`. -/
def parseLogOutput (output : String) : Except String (List Author) :=
  .ok ((splitLines output).filterMap fun line =>
    match goFields line with
    | f0 :: f1 :: rest => some ⟨joinSpace (f1 :: rest), f0, "", ""⟩
    | _ => none)

/-! ### Percent-encoding (`net/url` escape/unescape machinery)

These follow the unexported `shouldEscape`, `escape` and `unescape` of Go's
`net/url`, specialised to their encoding-mode argument.  Numeric codes stand
for the bytes Go compares: 45 `'-'`, 95 `'_'`, 46 `'.'`, 126 `'~'`, 33 `'!'`,
40 `'('`, 41 `')'`, 42 `'*'`. -/

/-- The encoding modes of `net/url` (`encodePath`, `encodePathSegment`,
`encodeHost`, `encodeZone`, `encodeUserPassword`, `encodeQueryComponent`,
`encodeFragment`). -/
inductive EncMode where
  | path
  | pathSegment
  | host
  | zone
  | userPassword
  | queryComponent
  | fragment
deriving DecidableEq, BEq

/-- ASCII letter test (`'a' <= c && c <= 'z' || 'A' <= c && c <= 'Z'`). -/
def isAlphaB (c : Char) : Bool :=
  (97 ≤ c.toNat && c.toNat ≤ 122) || (65 ≤ c.toNat && c.toNat ≤ 90)

/-- ASCII digit test (`'0' <= c && c <= '9'`). -/
def isDigitB (c : Char) : Bool :=
  48 ≤ c.toNat && c.toNat ≤ 57

/-- The extra bytes `shouldEscape` leaves unescaped in host/zone components:
`! $ & ' ( ) * + , ; = : [ ] < > "`. -/
def isHostExtra (n : Nat) : Bool :=
  n == 33 || n == 36 || n == 38 || n == 39 || n == 40 || n == 41 ||
  n == 42 || n == 43 || n == 44 || n == 59 || n == 61 || n == 58 ||
  n == 91 || n == 93 || n == 60 || n == 62 || n == 34

/-- The reserved bytes `$ & + , / : ; = ? @` of `shouldEscape`'s second
switch. -/
def isReservedSym (n : Nat) : Bool :=
  n == 36 || n == 38 || n == 43 || n == 44 || n == 47 || n == 58 ||
  n == 59 || n == 61 || n == 63 || n == 64

/-- The per-mode outcome of `shouldEscape` for the reserved bytes
(codes: 63 `'?'`, 47 `'/'`, 59 `';'`, 44 `','`, 64 `'@'`, 58 `':'`). -/
def escSpecial (n : Nat) (mode : EncMode) : Bool :=
  match mode with
  | .path => n == 63
  | .pathSegment => n == 47 || n == 59 || n == 44 || n == 63
  | .userPassword => n == 64 || n == 47 || n == 63 || n == 58
  | .queryComponent => true
  | .fragment => false
  | _ => true

/-- Embeds `shouldEscape(c, mode)` of `net/url`. -/
def shouldEscape (c : Char) (mode : EncMode) : Bool :=
  if isAlphaB c || isDigitB c then false
  else if (mode == EncMode.host || mode == EncMode.zone) && isHostExtra c.toNat then false
  else if c.toNat == 45 || c.toNat == 95 || c.toNat == 46 || c.toNat == 126 then false
  else if isReservedSym c.toNat then escSpecial c.toNat mode
  else if mode == EncMode.fragment &&
      (c.toNat == 33 || c.toNat == 40 || c.toNat == 41 || c.toNat == 42) then false
  else true

/-- UTF-8 encoding of one character, as byte values (Go strings are byte
strings; `escape` operates byte-wise). -/
def utf8Bytes (c : Char) : List Nat :=
  let n := c.toNat
  if n < 128 then [n]
  else if n < 2048 then [192 + n / 64, 128 + n % 64]
  else if n < 65536 then [224 + n / 4096, 128 + (n / 64) % 64, 128 + n % 64]
  else [240 + n / 262144, 128 + (n / 4096) % 64, 128 + (n / 64) % 64, 128 + n % 64]

/-- The UTF-8 bytes of a string. -/
def strBytes (s : String) : List Nat := s.data.flatMap utf8Bytes

/-- The digits `upperhex` of `net/url` (`"0123456789ABCDEF"`). -/
def upperHexDigit (n : Nat) : Char :=
  if n < 10 then Char.ofNat (48 + n) else Char.ofNat (55 + n)

/-- Embeds `escape(s, mode)` of `net/url` on the byte stream: a space becomes `'+'`
in query components, bytes with `shouldEscape` become `%XX` with upper-case
hex, everything else passes through. -/
def escapeBytes (mode : EncMode) : List Nat → List Char
  | [] => []
  | b :: rest =>
    if b == 32 && mode == EncMode.queryComponent then
      '+' :: escapeBytes mode rest
    else if shouldEscape (Char.ofNat b) mode then
      '%' :: upperHexDigit (b / 16) :: upperHexDigit (b % 16) :: escapeBytes mode rest
    else Char.ofNat b :: escapeBytes mode rest

/-- Embeds `url.QueryEscape`. -/
def queryEscape (s : String) : String :=
  ⟨escapeBytes EncMode.queryComponent (strBytes s)⟩

/-- Hex digit test `ishex`. -/
def isHexC (c : Char) : Bool :=
  isDigitB c || (97 ≤ c.toNat && c.toNat ≤ 102) || (65 ≤ c.toNat && c.toNat ≤ 70)

/-- Embeds `unhex`. -/
def unhexC (c : Char) : Nat :=
  if isDigitB c then c.toNat - 48
  else if 97 ≤ c.toNat then c.toNat - 87
  else c.toNat - 55

/-- Embeds `unescape(s, mode)` of `net/url`: decodes `%XX` (rejecting malformed
escapes, and `%`-escapes of ASCII bytes other than `%25` in host
components), maps `'+'` to a space in query components, and rejects bytes a
host must escape.  The zone-identifier special case for bracketed IPv6
hosts is not modelled (no claim concerns bracketed hosts). -/
def unescapeL (mode : EncMode) : List Char → Except String (List Char)
  | [] => .ok []
  | c :: rest =>
    if c.toNat == 37 then
      match rest with
      | h1 :: h2 :: rest2 =>
        if isHexC h1 && isHexC h2 then
          if mode == EncMode.host && unhexC h1 < 8 &&
              !(h1.toNat == 50 && h2.toNat == 53) then
            .error "invalid URL escape"
          else
            match unescapeL mode rest2 with
            | .error e => .error e
            | .ok tail => .ok (Char.ofNat (unhexC h1 * 16 + unhexC h2) :: tail)
        else .error "invalid URL escape"
      | _ => .error "invalid URL escape"
    else if c.toNat == 43 then
      match unescapeL mode rest with
      | .error e => .error e
      | .ok tail => .ok ((if mode == EncMode.queryComponent then ' ' else '+') :: tail)
    else if (mode == EncMode.host || mode == EncMode.zone) && c.toNat < 128 &&
        shouldEscape c mode then
      .error "invalid character in host name"
    else
      match unescapeL mode rest with
      | .error e => .error e
      | .ok tail => .ok (c :: tail)

/-- Embeds `url.QueryUnescape`. -/
def queryUnescape (s : String) : Except String String :=
  match unescapeL EncMode.queryComponent s.data with
  | .error e => .error e
  | .ok l => .ok ⟨l⟩

/-- One `key&`-delimited chunk of `url.ParseQuery`: chunks containing a
semicolon are rejected, empty chunks are skipped, otherwise the chunk is cut
at the first `'='` and both halves are query-unescaped. -/
def parseQueryPart (part : List Char) : Except String (Option (String × String)) :=
  if containsC ';' part then .error "invalid semicolon separator in query"
  else if part = [] then .ok none
  else
    match cutChar '=' part with
    | (k, v) =>
      match unescapeL EncMode.queryComponent k, unescapeL EncMode.queryComponent v with
      | .ok ku, .ok vu => .ok (some (⟨ku⟩, ⟨vu⟩))
      | .error e, _ => .error e
      | _, .error e => .error e

/-- All key/value pairs of the chunks, in order. -/
def parseQueryList : List (List Char) → Except String (List (String × String))
  | [] => .ok []
  | p :: ps =>
    match parseQueryPart p, parseQueryList ps with
    | .ok none, .ok rest => .ok rest
    | .ok (some kv), .ok rest => .ok (kv :: rest)
    | .error e, _ => .error e
    | _, .error e => .error e

/-- Embeds `url.ParseQuery`, as the ordered list of decoded key/value pairs (Go
accumulates them into a multimap; the pair list here carries the same
bindings in encounter order).  Go additionally keeps the partial map on
error; only the success case is relied on. -/
def parseQuery (query : String) : Except String (List (String × String)) :=
  parseQueryList (splitChar '&' query.data)

/-! ### Link Synthesizer (`generateSearchURLs`, core.go lines 89-104) -/

/-- Byte-wise `<` on strings (`sort.Strings` comparison). -/
def listLess : List Char → List Char → Bool
  | [], [] => false
  | [], _ :: _ => true
  | _ :: _, [] => false
  | x :: xs, y :: ys =>
    if x.toNat < y.toNat then true
    else if y.toNat < x.toNat then false
    else listLess xs ys

/-- Insert into an ascending list (helper for `sort.Strings`). -/
def ordInsertStr (s : String) : List String → List String
  | [] => [s]
  | t :: ts => if listLess t.data s.data then t :: ordInsertStr s ts else s :: t :: ts

/-- Embeds `sort.Strings` (the keys are distinct, so stability is irrelevant). -/
def sortStrings : List String → List String
  | [] => []
  | s :: ss => ordInsertStr s (sortStrings ss)

/-- Embeds `v[k]` for the assoc-list model of `url.Values`. -/
def valuesGet (v : List (String × List String)) (k : String) : List String :=
  match v.find? (fun p => p.1 == k) with
  | some p => p.2
  | none => []

/-- The `k=v` chunks `url.Values.Encode` emits for one key. -/
def encodeKV (k : String) : List String → List String
  | [] => []
  | val :: rest => (queryEscape k ++ "=" ++ queryEscape val) :: encodeKV k rest

/-- Join with `'&'` (the `if buf.Len() > 0` separator logic of `Encode`). -/
def joinAmp : List String → String
  | [] => ""
  | [x] => x
  | x :: xs => x ++ "&" ++ joinAmp xs

/-- Embeds `url.Values.Encode`: keys sorted byte-wise ascending, each value emitted
as `QueryEscape(k)=QueryEscape(v)`, chunks joined by `'&'`. -/
def valuesEncode (v : List (String × List String)) : String :=
  joinAmp ((sortStrings (v.map Prod.fst)).flatMap fun k => encodeKV k (valuesGet v k))

/-- Embeds `generateSearchURLs` (core.go lines 89-104): for each author, the search
query is `fmt.Sprintf("%s %s", author.Name, repoName)` and the search URL
appends the encoded `tbm=isch` / `q=query` parameters to the fixed base;
`RepoName` and `SearchURL` are both set on the copied record. -/
def generateSearchURLs (authors : List Author) (repoName : String) : List Author :=
  authors.map fun author =>
    let searchQuery := author.Name ++ " " ++ repoName
    let baseURL := "https://www.google.com/search"
    let searchURL := baseURL ++ "?" ++
      valuesEncode [("tbm", ["isch"]), ("q", [searchQuery])]
    { author with RepoName := repoName, SearchURL := searchURL }

/-! ### `net/url.Parse` (the subset the Repository Identity Resolver uses) -/

/-- Result of `getScheme`: an error, no scheme, or a scheme with the rest of
the URL after the colon. -/
inductive SchemeRes where
  | err
  | noScheme
  | found (scheme rest : List Char)

/-- The scan of `getScheme`: letters may continue a scheme, digits and
`+ - .` may continue but not start one, a colon after at least one character
ends it, a leading colon is an error, and any other byte means the URL has
no scheme. -/
def schemeScan : List Char → Bool → SchemeRes
  | [], _ => .noScheme
  | c :: rest, first =>
    if isAlphaB c then
      match schemeScan rest false with
      | .found s r => .found (c :: s) r
      | other => other
    else if isDigitB c || c.toNat == 43 || c.toNat == 45 || c.toNat == 46 then
      if first then .noScheme
      else
        match schemeScan rest false with
        | .found s r => .found (c :: s) r
        | other => other
    else if c.toNat == 58 then
      if first then .err else .found [] rest
    else .noScheme

/-- Embeds `getScheme(rawURL)`: the scheme (possibly empty) and the remainder. -/
def getScheme (rawURL : List Char) : Except String (List Char × List Char) :=
  match schemeScan rawURL true with
  | .err => .error "missing protocol scheme"
  | .noScheme => .ok ([], rawURL)
  | .found s r => .ok (s, r)

/-- ASCII `strings.ToLower` for one character. -/
def toLowerC (c : Char) : Char :=
  if 65 ≤ c.toNat && c.toNat ≤ 90 then Char.ofNat (c.toNat + 32) else c

/-- Embeds `strings.ToLower`. -/
def toLowerL (l : List Char) : List Char := l.map toLowerC

/-- Embeds `stringContainsCTLByte`. -/
def containsCTL (l : List Char) : Bool :=
  l.any fun c => c.toNat < 32 || c.toNat == 127

/-- Embeds `strings.LastIndex` for a single-byte needle. -/
def lastIndexOf (c : Char) : List Char → Option Nat
  | [] => none
  | x :: xs =>
    match lastIndexOf c xs with
    | some i => some (i + 1)
    | none => if x.toNat == c.toNat then some 0 else none

/-- Embeds `validOptionalPort`: empty, or `':'` followed by digits only. -/
def validOptionalPort : List Char → Bool
  | [] => true
  | c :: rest => c.toNat == 58 && rest.all isDigitB

/-- Embeds `parseHost` of `net/url`: bracketed hosts must contain `']'` and carry a
valid optional port after it (the IPv6 zone-identifier unescape split is not
modelled — no claim concerns bracketed hosts); unbracketed hosts with a last
colon must have a valid port there; finally the host is unescaped in host
mode, which rejects bytes a host cannot contain. -/
def parseHost (host : List Char) : Except String (List Char) :=
  if hasPrefixL host ['['] then
    match lastIndexOf ']' host with
    | none => .error "missing ']' in host"
    | some i =>
      if validOptionalPort (host.drop (i + 1)) then unescapeL EncMode.host host
      else .error "invalid port after host"
  else
    match lastIndexOf ':' host with
    | some i =>
      if validOptionalPort (host.drop i) then unescapeL EncMode.host host
      else .error "invalid port after host"
    | none => unescapeL EncMode.host host

/-- Embeds `validEncoded(s, encodeUserPassword)`: every byte is either one of the
always-permitted userinfo bytes, a bracket, a percent sign, or a byte
`shouldEscape` permits unescaped. -/
def validUserinfoByte (c : Char) : Bool :=
  c.toNat == 33 || c.toNat == 36 || c.toNat == 38 || c.toNat == 39 ||
  c.toNat == 40 || c.toNat == 41 || c.toNat == 42 || c.toNat == 43 ||
  c.toNat == 44 || c.toNat == 59 || c.toNat == 61 || c.toNat == 58 ||
  c.toNat == 64 || c.toNat == 91 || c.toNat == 93 || c.toNat == 37 ||
  !shouldEscape c EncMode.userPassword

/-- Embeds `validEncoded` in user-password mode. -/
def validUserinfo (l : List Char) : Bool := l.all validUserinfoByte

/-- Embeds `parseAuthority`: the userinfo is everything before the last `'@'` (the
host is parsed first, then the userinfo is validated and unescaped; a
`user:password` split is unescaped per half — the password is checked and
dropped here, since only the decoded user name and the host flow onward). -/
def parseAuthority (authority : List Char) :
    Except String (Option (List Char) × List Char) :=
  match lastIndexOf '@' authority with
  | none =>
    match parseHost authority with
    | .error e => .error e
    | .ok h => .ok (none, h)
  | some i =>
    match parseHost (authority.drop (i + 1)) with
    | .error e => .error e
    | .ok h =>
      let userinfo := authority.take i
      if !validUserinfo userinfo then .error "net/url: invalid userinfo"
      else if !containsC ':' userinfo then
        match unescapeL EncMode.userPassword userinfo with
        | .error e => .error e
        | .ok u => .ok (some u, h)
      else
        match cutChar ':' userinfo with
        | (user, pass) =>
          match unescapeL EncMode.userPassword user,
              unescapeL EncMode.userPassword pass with
          | .ok u, .ok _ => .ok (some u, h)
          | .error e, _ => .error e
          | _, .error e => .error e

/-- The `URL` record of `net/url` (the fields the program can observe;
`opq` is Go's `Opaque`). -/
structure GoURL where
  scheme : String
  opq : String
  userinfo : String
  hasUser : Bool
  host : String
  path : String
  rawQuery : String
  fragment : String
  forceQuery : Bool
deriving DecidableEq

/-- The query split of `parse`: a single trailing `'?'` sets `ForceQuery`,
otherwise the raw query is everything after the first `'?'`. -/
def splitQueryGo (rest : List Char) : List Char × List Char × Bool :=
  if hasSuffixL rest ['?'] && !containsC '?' rest.dropLast then
    (rest.dropLast, [], true)
  else
    match cutChar '?' rest with
    | (r, q) => (r, q, false)

/-- The authority-and-path tail of `parse`: under a scheme or a `"//"` (but
not `"///"`) prefix, the authority runs up to the next `'/'` and the path is
the remainder; the path is unescaped in path mode. -/
def parseAuthAndPath (schemeL rest2 rawQuery : List Char) (forceQuery : Bool) :
    Except String GoURL :=
  if (!schemeL.isEmpty || !hasPrefixL rest2 ['/', '/', '/']) &&
      hasPrefixL rest2 ['/', '/'] then
    match cutKeep '/' (rest2.drop 2) with
    | (authority, rest3) =>
      match parseAuthority authority with
      | .error e => .error e
      | .ok (userOpt, h) =>
        match unescapeL EncMode.path rest3 with
        | .error e => .error e
        | .ok p =>
          .ok ⟨⟨schemeL⟩, "", ⟨userOpt.getD []⟩, userOpt.isSome, ⟨h⟩, ⟨p⟩,
            ⟨rawQuery⟩, "", forceQuery⟩
  else
    match unescapeL EncMode.path rest2 with
    | .error e => .error e
    | .ok p => .ok ⟨⟨schemeL⟩, "", "", false, "", ⟨p⟩, ⟨rawQuery⟩, "", forceQuery⟩

/-- Embeds `parse(rawURL, viaRequest=false)` of `net/url`: control bytes are
rejected, `"*"` is the wildcard path, the scheme is lower-cased, the query
is split off, a non-`/` remainder under a scheme is opaque, without a scheme
a colon in the first path segment is rejected, and otherwise authority and
path are parsed. -/
def parseMain (rest0 : List Char) : Except String GoURL :=
  if containsCTL rest0 then .error "net/url: invalid control character in URL"
  else if rest0 = ['*'] then
    .ok ⟨"", "", "", false, "", "*", "", "", false⟩
  else
    match getScheme rest0 with
    | .error e => .error e
    | .ok (scheme, rest1) =>
      let schemeL := toLowerL scheme
      match splitQueryGo rest1 with
      | (rest2, rawQuery, forceQuery) =>
        if !hasPrefixL rest2 ['/'] && !schemeL.isEmpty then
          .ok ⟨⟨schemeL⟩, ⟨rest2⟩, "", false, "", "", ⟨rawQuery⟩, "", forceQuery⟩
        else if !hasPrefixL rest2 ['/'] && schemeL.isEmpty &&
            containsC ':' (cutChar '/' rest2).1 then
          .error "first path segment in URL cannot contain colon"
        else parseAuthAndPath schemeL rest2 rawQuery forceQuery

/-- Embeds `url.Parse`: cut the fragment at the first `'#'`, parse the rest, then
unescape the fragment (fragment mode). -/
def urlParse (rawURL : String) : Except String GoURL :=
  match cutChar '#' rawURL.data with
  | (u, frag) =>
    match parseMain u with
    | .error e => .error e
    | .ok url =>
      match unescapeL EncMode.fragment frag with
      | .error e => .error e
      | .ok f => .ok { url with fragment := ⟨f⟩ }

/-! ### Repository Identity Resolver (core.go lines 134-190) -/

/-- Embeds `isSSHURL` (core.go lines 161-163): `strings.HasPrefix(repoURL, "git@")`. -/
def isSSHURL (repoURL : String) : Bool :=
  hasPrefixL repoURL.data ("git@".data)

/-- Embeds `extractRepoName` (core.go lines 185-190): the final `/`-delimited
segment of the path, with one trailing `".git"` stripped. -/
def extractRepoName (repoPath : String) : String :=
  let repoNameParts := splitChar '/' repoPath.data
  let repoName := lastPart repoNameParts
  ⟨trimSuffixL repoName (".git".data)⟩

/-- Embeds `getRepoNameFromSSHURL` (core.go lines 165-173): split the URL on every
colon, demand exactly two parts, and extract the repository name from the
second. -/
def getRepoNameFromSSHURL (repoURL : String) : Except String String :=
  let parts := splitChar ':' repoURL.data
  if parts.length ≠ 2 then .error ("invalid SSH URL format: " ++ repoURL)
  else .ok (extractRepoName ⟨parts.getD 1 []⟩)

/-- Embeds `getRepoNameFromHTTPSURL` (core.go lines 175-183): parse as a URL and
extract the repository name from the parsed path. -/
def getRepoNameFromHTTPSURL (repoURL : String) : Except String String :=
  match urlParse repoURL with
  | .error e => .error ("failed to parse repository URL: " ++ e)
  | .ok parsedURL => .ok (extractRepoName parsedURL.path)

/-- The pure tail of `getRepoName` (core.go lines 134-145) after the remote
URL has been obtained: SSH-classified URLs go through the SSH splitter,
everything else through `net/url` parsing. -/
def getRepoNameFromURL (repoURL : String) : Except String String :=
  if isSSHURL repoURL then getRepoNameFromSSHURL repoURL
  else getRepoNameFromHTTPSURL repoURL

/-! ### Report Writer (`writeMarkdownFile`, core.go lines 106-132)

File output is modelled explicitly.  The embedded `author_template.tmpl`
resource is not in the sources, so the per-author fragment is an arbitrary
`render : Author → String` parameter; the claims about the writer are
quantified over it.  The buffered writer is modelled as a sequence of write
operations against a device, with a failure oracle (`true` = this operation
reports an error, as a full disk would); each successful operation's bytes
reach the file.  This mirrors the checked error results of `tmpl.Execute`
and `writer.WriteString` and the *discarded* error result of
`writer.Flush()` at core.go line 130. -/

/-- State threaded through the writer: the remaining failure oracle, the
bytes that reached the file, and how many write operations failed. -/
structure WState where
  oracle : List Bool
  written : String
  failedWrites : Nat
deriving DecidableEq

/-- One write operation: the oracle decides success (an exhausted oracle
means success); a successful write appends its bytes. -/
def doWrite (st : WState) (s : String) : Bool × WState :=
  match st.oracle with
  | [] => (true, { st with written := st.written ++ s })
  | b :: rest =>
    if b then (false, { st with oracle := rest, failedWrites := st.failedWrites + 1 })
    else (true, { st with oracle := rest, written := st.written ++ s })

/-- The per-author loop of `writeMarkdownFile`: `tmpl.Execute` writes the
rendered fragment (its error is checked), then `writer.WriteString("\n")`
writes the newline (its error is checked).  Returns the final state and the
error, if any. -/
def writeAuthors (render : Author → String) :
    List Author → WState → WState × Option String
  | [], st => (st, none)
  | a :: rest, st =>
    match doWrite st (render a) with
    | (false, st1) => (st1, some "error executing template")
    | (true, st1) =>
      match doWrite st1 "\n" with
      | (false, st2) => (st2, some "cannot write newline to file")
      | (true, st2) => writeAuthors render rest st2

/-- Observable outcome of `writeMarkdownFile`: the file contents afterwards
(`none` = the file does not exist), the function's returned error value, and
the number of write operations that reported failure during the call. -/
structure WriteOutcome where
  fs : Option String
  result : Except String Unit
  failedWrites : Nat
deriving DecidableEq

/-- Embeds `writeMarkdownFile` (core.go lines 106-132): `os.Create` truncates the
file (or fails, with the previous contents untouched); parsing the embedded
template is a static operation that succeeds; the author loop propagates
its errors; finally `writer.Flush()` performs a last write operation whose
error result the code discards. -/
def writeMarkdownFile (render : Author → String) (createOk : Bool)
    (oracle : List Bool) (authors : List Author) (fs₀ : Option String) :
    WriteOutcome :=
  if createOk then
    match writeAuthors render authors ⟨oracle, "", 0⟩ with
    | (st, some e) => ⟨some st.written, .error e, st.failedWrites⟩
    | (st, none) =>
      match doWrite st "" with
      | (_, st2) => ⟨some st2.written, .ok (), st2.failedWrites⟩
  else ⟨fs₀, .error "error creating file", 0⟩

/-- One rendered fragment per record, each followed by one newline — the
contents the Report Writer is specified to produce. -/
def renderedReport (render : Author → String) : List Author → String
  | [] => ""
  | a :: rest => render a ++ "\n" ++ renderedReport render rest

/-! ### The pipeline (`Run`, core.go lines 26-60)

External command invocations are abstracted as an environment holding each
command's result: `.ok` carries the captured standard output, `.error` an
invocation failure or nonzero exit (`util.RunCommand` returns a non-`nil`
`err` exactly then). -/

/-- Results of the three external command invocations, the file-creation
outcome and the write oracle for one run. -/
structure Env where
  repoURLCmd : Except String String
  branchCmd : Except String String
  shortlogCmd : Except String String
  createOk : Bool
  oracle : List Bool
deriving DecidableEq

/-- Observable outcome of `Run`: the output file contents afterwards,
whether `writeMarkdownFile` was reached at all, and whether the success
message was printed. -/
structure RunOutcome where
  fs : Option String
  writeReached : Bool
  success : Bool
deriving DecidableEq

/-- Embeds `Run` (core.go lines 26-60): resolve the repository name from the
trimmed remote URL, resolve the branch, run the shortlog, parse it, attach
search URLs and write the markdown file; every failure returns immediately.
The branch value itself only parameterises the shortlog command, which the
environment already abstracts. -/
def Run (env : Env) (render : Author → String) (fs₀ : Option String) :
    RunOutcome :=
  match env.repoURLCmd with
  | .error _ => ⟨fs₀, false, false⟩
  | .ok rawURL =>
    match getRepoNameFromURL (trimSpace rawURL) with
    | .error _ => ⟨fs₀, false, false⟩
    | .ok repoName =>
      match env.branchCmd with
      | .error _ => ⟨fs₀, false, false⟩
      | .ok _branch =>
        match env.shortlogCmd with
        | .error _ => ⟨fs₀, false, false⟩
        | .ok output =>
          match parseLogOutput output with
          | .error _ => ⟨fs₀, false, false⟩
          | .ok authors =>
            let authorsWithURL := generateSearchURLs authors repoName
            match writeMarkdownFile render env.createOk env.oracle
                authorsWithURL fs₀ with
            | ⟨fs, .error _, _⟩ => ⟨fs, true, false⟩
            | ⟨fs, .ok _, _⟩ => ⟨fs, true, true⟩

/-- Statement-side character class for quantified host names: ASCII letters,
digits, `'-'` (45) and `'.'` (46) — the shape of real DNS host names. -/
def hostOK (c : Char) : Bool :=
  isAlphaB c || isDigitB c || c.toNat == 45 || c.toNat == 46

/-- Statement-side character class for quantified path segments: ASCII
letters, digits, `'-'` (45), `'_'` (95) and `'.'` (46). -/
def segOK (c : Char) : Bool :=
  isAlphaB c || isDigitB c || c.toNat == 45 || c.toNat == 95 || c.toNat == 46

/-! ### Helper lemmas -/

theorem strExt {s t : String} (h : s.data = t.data) : s = t := by
  cases s; cases t; exact congrArg String.mk h

theorem data_append (s t : String) : (s ++ t).data = s.data ++ t.data := by
  cases s; cases t; rfl

theorem mk_data (s : String) : (⟨s.data⟩ : String) = s := rfl

theorem strAppend_assoc (a b c : String) : (a ++ b) ++ c = a ++ (b ++ c) := by
  apply strExt
  simp [data_append, List.append_assoc]

theorem strAppend_nil (s : String) : s ++ "" = s := by
  apply strExt
  simp [data_append]

theorem strNil_append (s : String) : "" ++ s = s := by
  apply strExt
  simp [data_append]

theorem containsC_append (c : Char) (a b : List Char) :
    containsC c (a ++ b) = (containsC c a || containsC c b) := by
  induction a with
  | nil => simp [containsC]
  | cons x xs ih => simp [containsC, ih, Bool.or_assoc]

theorem containsC_false_of_all {c : Char} {l : List Char}
    (h : ∀ x ∈ l, x.toNat ≠ c.toNat) : containsC c l = false := by
  induction l with
  | nil => rfl
  | cons x xs ih =>
    simp only [containsC, Bool.or_eq_false_iff]
    constructor
    · simpa using h x (by simp)
    · exact ih fun y hy => h y (by simp [hy])

theorem mem_of_containsC_false {c : Char} {l : List Char}
    (h : containsC c l = false) : ∀ x ∈ l, x.toNat ≠ c.toNat := by
  induction l with
  | nil => simp
  | cons x xs ih =>
    simp only [containsC, Bool.or_eq_false_iff] at h
    intro y hy
    rcases List.mem_cons.mp hy with rfl | hy'
    · simpa using h.1
    · exact ih h.2 y hy'

theorem cutChar_not_contains {c : Char} {l : List Char}
    (h : containsC c l = false) : cutChar c l = (l, []) := by
  induction l with
  | nil => rfl
  | cons x xs ih =>
    simp only [containsC, Bool.or_eq_false_iff] at h
    simp [cutChar, h.1, ih h.2]

theorem cutKeep_append {c : Char} {a : List Char} (b : List Char)
    (h : containsC c a = false) : cutKeep c (a ++ c :: b) = (a, c :: b) := by
  induction a with
  | nil => simp [cutKeep]
  | cons x xs ih =>
    simp only [containsC, Bool.or_eq_false_iff] at h
    simp [cutKeep, h.1, ih h.2]

theorem splitChar_not_contains {c : Char} {l : List Char}
    (h : containsC c l = false) : splitChar c l = [l] := by
  induction l with
  | nil => rfl
  | cons x xs ih =>
    simp only [containsC, Bool.or_eq_false_iff] at h
    simp [splitChar, h.1, ih h.2]

theorem splitChar_ne_nil (c : Char) (l : List Char) : splitChar c l ≠ [] := by
  cases l with
  | nil => simp [splitChar]
  | cons x xs =>
    simp only [splitChar]
    split
    · simp
    · split <;> simp

theorem splitChar_append2 {c : Char} {a b : List Char}
    (ha : containsC c a = false) (hb : containsC c b = false) :
    splitChar c (a ++ c :: b) = [a, b] := by
  induction a with
  | nil => simp [splitChar, splitChar_not_contains hb]
  | cons x xs ih =>
    simp only [containsC, Bool.or_eq_false_iff] at ha
    simp [splitChar, ha.1, ih ha.2]

theorem lastPart_cons_cons (p : List Char) (q : List Char) (ps : List (List Char)) :
    lastPart (p :: q :: ps) = lastPart (q :: ps) := rfl

theorem lastPart_splitChar {c : Char} (a : List Char) {b : List Char}
    (hb : containsC c b = false) :
    lastPart (splitChar c (a ++ c :: b)) = b := by
  induction a with
  | nil =>
    simp [splitChar, splitChar_not_contains hb, lastPart]
  | cons x xs ih =>
    by_cases hx : x.toNat = c.toNat
    · simp only [List.cons_append, splitChar, hx, beq_self_eq_true, if_true]
      have hne := splitChar_ne_nil c (xs ++ c :: b)
      cases hq : splitChar c (xs ++ c :: b) with
      | nil => exact absurd hq hne
      | cons q qs =>
        rw [lastPart_cons_cons]
        rw [hq] at ih
        exact ih
    · have hx' : (x.toNat == c.toNat) = false := by
        simpa using hx
      simp only [List.cons_append, splitChar, hx', Bool.false_eq_true, if_false]
      cases hq : splitChar c (xs ++ c :: b) with
      | nil => exact absurd hq (splitChar_ne_nil c _)
      | cons q qs =>
        cases qs with
        | nil =>
          exfalso
          have h2 : 2 ≤ (splitChar c (xs ++ c :: b)).length := by
            clear hq ih
            induction xs with
            | nil =>
              simp only [List.nil_append, splitChar, beq_self_eq_true, if_true]
              have := splitChar_ne_nil c b
              cases hsb : splitChar c b with
              | nil => exact absurd hsb this
              | cons _ _ => simp
            | cons y ys ihy =>
              simp only [List.cons_append, splitChar]
              split
              · have := splitChar_ne_nil c (ys ++ c :: b)
                cases hsb : splitChar c (ys ++ c :: b) with
                | nil => exact absurd hsb this
                | cons _ _ => simp
              · cases hsb : splitChar c (ys ++ c :: b) with
                | nil => exact absurd hsb (splitChar_ne_nil c _)
                | cons z zs =>
                  rw [hsb] at ihy
                  simp only [List.length_cons] at ihy ⊢
                  omega
          rw [hq] at h2
          simp at h2
        | cons q2 qs2 =>
          rw [lastPart_cons_cons]
          rw [hq, lastPart_cons_cons] at ih
          exact ih

theorem hasPrefixL_append (p l : List Char) : hasPrefixL (p ++ l) p = true := by
  induction p with
  | nil => cases l <;> rfl
  | cons x xs ih => simp [hasPrefixL, ih]

theorem hasPrefixL_exists {l p : List Char} (h : hasPrefixL l p = true) :
    ∃ r, l = p ++ r := by
  induction p generalizing l with
  | nil => exact ⟨l, rfl⟩
  | cons y ys ih =>
    cases l with
    | nil => simp [hasPrefixL] at h
    | cons x xs =>
      simp only [hasPrefixL, Bool.and_eq_true, beq_iff_eq] at h
      obtain ⟨r, hr⟩ := ih h.2
      exact ⟨r, by rw [charToNat_inj h.1, hr]; rfl⟩

theorem hasPrefixL_single_false {c : Char} {l : List Char}
    (h : ∀ x ∈ l, x.toNat ≠ c.toNat) : hasPrefixL l [c] = false := by
  cases l with
  | nil => rfl
  | cons x xs =>
    simp only [hasPrefixL, Bool.and_eq_false_iff]
    left
    simpa using h x (by simp)

theorem hasSuffixL_single_false {c : Char} {l : List Char}
    (h : containsC c l = false) : hasSuffixL l [c] = false := by
  unfold hasSuffixL
  apply hasPrefixL_single_false
  intro x hx
  exact mem_of_containsC_false h x (List.mem_reverse.mp (by simpa using hx))

theorem trimSuffixL_append (b suf : List Char) : trimSuffixL (b ++ suf) suf = b := by
  unfold trimSuffixL
  have hsuf : hasSuffixL (b ++ suf) suf = true := by
    unfold hasSuffixL
    rw [List.reverse_append]
    exact hasPrefixL_append suf.reverse b.reverse
  rw [hsuf]
  simp

theorem trimSuffixL_no_suffix {l suf : List Char} (h : hasSuffixL l suf = false) :
    trimSuffixL l suf = l := by
  unfold trimSuffixL
  rw [h]
  simp

theorem lastIndexOf_none {c : Char} {l : List Char}
    (h : ∀ x ∈ l, x.toNat ≠ c.toNat) : lastIndexOf c l = none := by
  induction l with
  | nil => rfl
  | cons x xs ih =>
    simp only [lastIndexOf, ih fun y hy => h y (by simp [hy])]
    simpa using h x (by simp)

theorem hostOK_toNat {c : Char} (h : hostOK c = true) :
    (97 ≤ c.toNat ∧ c.toNat ≤ 122) ∨ (65 ≤ c.toNat ∧ c.toNat ≤ 90) ∨
    (48 ≤ c.toNat ∧ c.toNat ≤ 57) ∨ c.toNat = 45 ∨ c.toNat = 46 := by
  simp only [hostOK, isAlphaB, isDigitB, Bool.or_eq_true, Bool.and_eq_true,
    decide_eq_true_eq, beq_iff_eq] at h
  tauto

theorem segOK_toNat {c : Char} (h : segOK c = true) :
    (97 ≤ c.toNat ∧ c.toNat ≤ 122) ∨ (65 ≤ c.toNat ∧ c.toNat ≤ 90) ∨
    (48 ≤ c.toNat ∧ c.toNat ≤ 57) ∨ c.toNat = 45 ∨ c.toNat = 95 ∨ c.toNat = 46 := by
  simp only [segOK, isAlphaB, isDigitB, Bool.or_eq_true, Bool.and_eq_true,
    decide_eq_true_eq, beq_iff_eq] at h
  tauto

theorem hostOK_shouldEscape {c : Char} (h : hostOK c = true) :
    shouldEscape c EncMode.host = false := by
  simp only [hostOK, Bool.or_eq_true] at h
  rcases h with ((h | h) | h) | h
  · simp [shouldEscape, h]
  · simp [shouldEscape, h]
  · have h' : c.toNat = 45 := by simpa using h
    simp [shouldEscape, isAlphaB, isDigitB, isHostExtra, isReservedSym, h']
  · have h' : c.toNat = 46 := by simpa using h
    simp [shouldEscape, isAlphaB, isDigitB, isHostExtra, isReservedSym, h']

theorem unescapeL_host_id {l : List Char} (h : ∀ c ∈ l, hostOK c = true) :
    unescapeL EncMode.host l = .ok l := by
  induction l with
  | nil => rfl
  | cons c rest ih =>
    have hc := h c (by simp)
    have hd := hostOK_toNat hc
    have h37 : (c.toNat == 37) = false := by simp; omega
    have h43 : (c.toNat == 43) = false := by simp; omega
    have hse := hostOK_shouldEscape hc
    rw [unescapeL.eq_def]
    simp [h37, h43, hse, ih fun x hx => h x (by simp [hx])]

theorem unescapeL_path_id {l : List Char} (h : containsC '%' l = false) :
    unescapeL EncMode.path l = .ok l := by
  induction l with
  | nil => rfl
  | cons c rest ih =>
    simp only [containsC, Bool.or_eq_false_iff] at h
    have h37 : (c.toNat == 37) = false := h.1
    have hpq : (EncMode.path == EncMode.queryComponent) = false := by decide
    have hph : (EncMode.path == EncMode.host) = false := by decide
    have hpz : (EncMode.path == EncMode.zone) = false := by decide
    by_cases h43 : c.toNat = 43
    · have hcp : c = '+' := charToNat_inj (by simpa using h43)
      subst hcp
      rw [unescapeL.eq_def]
      simp [hpq, hph, hpz, ih h.2]
    · have h43' : (c.toNat == 43) = false := by simpa using h43
      rw [unescapeL.eq_def]
      simp [h37, h43', hpq, hph, hpz, ih h.2]

theorem extractRepoName_mk (l : List Char) :
    extractRepoName ⟨l⟩ =
      ⟨trimSuffixL (lastPart (splitChar '/' l)) (".git".data)⟩ := rfl

theorem getScheme_https (r : List Char) :
    getScheme ('h' :: 't' :: 't' :: 'p' :: 's' :: ':' :: r) =
      .ok (['h', 't', 't', 'p', 's'], r) := rfl

theorem hostOK_ne {c : Char} (h : hostOK c = true) (n : Nat)
    (hn : n < 45 ∨ n = 47 ∨ n = 58 ∨ n = 59 ∨ n = 60 ∨ n = 61 ∨ n = 62 ∨
      n = 63 ∨ n = 64 ∨ n = 91 ∨ 122 < n) : c.toNat ≠ n := by
  have := hostOK_toNat h
  omega

/-- Embeds `parseAuthAndPath` on a well-formed `https` authority: the host runs to
the first slash and the remainder is the path. -/
theorem parseAuthAndPath_https (host tail3 : List Char)
    (hh : ∀ c ∈ host, hostOK c = true)
    (hpct : containsC '%' ('/' :: tail3) = false) :
    parseAuthAndPath ['h', 't', 't', 'p', 's'] ('/' :: '/' :: (host ++ '/' :: tail3))
        [] false =
      .ok ⟨"https", "", "", false, ⟨host⟩, ⟨'/' :: tail3⟩, "", "", false⟩ := by
  have hslash : containsC '/' host = false :=
    containsC_false_of_all fun x hx =>
      show x.toNat ≠ 47 from hostOK_ne (hh x hx) 47 (by omega)
  have hat : lastIndexOf '@' host = none :=
    lastIndexOf_none fun x hx =>
      show x.toNat ≠ 64 from hostOK_ne (hh x hx) 64 (by omega)
  have hbr : hasPrefixL host ['['] = false :=
    hasPrefixL_single_false fun x hx =>
      show x.toNat ≠ 91 from hostOK_ne (hh x hx) 91 (by omega)
  have hcol : lastIndexOf ':' host = none :=
    lastIndexOf_none fun x hx =>
      show x.toNat ≠ 58 from hostOK_ne (hh x hx) 58 (by omega)
  simp only [parseAuthAndPath, List.isEmpty_cons, Bool.not_false, Bool.true_or,
    Bool.true_and, hasPrefixL, beq_self_eq_true, Bool.and_true, Bool.true_and,
    List.drop_succ_cons, List.drop_zero, if_true]
  rw [cutKeep_append tail3 hslash]
  simp [parseAuthority, hat, parseHost, hbr, hcol,
    unescapeL_host_id hh, unescapeL_path_id hpct]

/-- Embeds `parseMain` on `https://host/...` with a well-formed host and a path
free of `#`, `%`, `?` and control bytes. -/
theorem parseMain_https (host tail3 : List Char)
    (hh : ∀ c ∈ host, hostOK c = true)
    (ht : ∀ c ∈ tail3, 31 < c.toNat ∧ c.toNat ≠ 127 ∧ c.toNat ≠ 35 ∧
      c.toNat ≠ 37 ∧ c.toNat ≠ 63) :
    parseMain ('h' :: 't' :: 't' :: 'p' :: 's' :: ':' :: '/' :: '/' ::
        (host ++ '/' :: tail3)) =
      .ok ⟨"https", "", "", false, ⟨host⟩, ⟨'/' :: tail3⟩, "", "", false⟩ := by
  have hQ : ∀ x ∈ ('h' :: 't' :: 't' :: 'p' :: 's' :: ':' :: '/' :: '/' ::
      (host ++ '/' :: tail3) : List Char),
      31 < x.toNat ∧ x.toNat ≠ 127 ∧ x.toNat ≠ 35 ∧ x.toNat ≠ 37 ∧ x.toNat ≠ 63 := by
    intro x hx
    simp only [List.mem_cons, List.mem_append] at hx
    rcases hx with rfl | rfl | rfl | rfl | rfl | rfl | rfl | rfl | hx | rfl | hx
    · decide
    · decide
    · decide
    · decide
    · decide
    · decide
    · decide
    · decide
    · have := hostOK_toNat (hh x hx)
      omega
    · decide
    · exact ht x hx
  have hRest : ∀ x ∈ ('/' :: '/' :: (host ++ '/' :: tail3) : List Char),
      31 < x.toNat ∧ x.toNat ≠ 127 ∧ x.toNat ≠ 35 ∧ x.toNat ≠ 37 ∧ x.toNat ≠ 63 := by
    intro x hx
    apply hQ
    simp only [List.mem_cons] at hx ⊢
    tauto
  have hctl : containsCTL ('h' :: 't' :: 't' :: 'p' :: 's' :: ':' :: '/' :: '/' ::
      (host ++ '/' :: tail3)) = false := by
    rw [containsCTL, List.any_eq_false]
    intro x hx
    have hx' := hQ x hx
    have hlt : ¬ (x.toNat < 32) := by omega
    have h127 : (x.toNat == 127) = false := by
      simp only [beq_eq_false_iff_ne, ne_eq]
      omega
    simp [hlt, h127]
  have hq63 : containsC '?' ('/' :: '/' :: (host ++ '/' :: tail3)) = false :=
    containsC_false_of_all fun x hx => (hRest x hx).2.2.2.2
  have hsplitq : splitQueryGo ('/' :: '/' :: (host ++ '/' :: tail3)) =
      ('/' :: '/' :: (host ++ '/' :: tail3), [], false) := by
    rw [splitQueryGo, hasSuffixL_single_false hq63]
    simp only [Bool.false_and, Bool.false_eq_true, if_false,
      cutChar_not_contains hq63]
  simp only [parseMain, hctl, Bool.false_eq_true, if_false]
  rw [if_neg (by simp)]
  rw [getScheme_https]
  simp only [hsplitq]
  rw [if_neg (by simp [toLowerL, toLowerC, hasPrefixL])]
  rw [if_neg (by simp [toLowerL, toLowerC, hasPrefixL])]
  have htl : toLowerL ['h', 't', 't', 'p', 's'] = ['h', 't', 't', 'p', 's'] := rfl
  rw [htl]
  exact parseAuthAndPath_https host tail3 hh
    (containsC_false_of_all fun x hx => by
      simp only [List.mem_cons] at hx
      rcases hx with rfl | hx
      · decide
      · exact (ht x hx).2.2.2.1)

/-- Embeds `url.Parse` on `https://host/...`. -/
theorem urlParse_https (host tail3 : List Char)
    (hh : ∀ c ∈ host, hostOK c = true)
    (ht : ∀ c ∈ tail3, 31 < c.toNat ∧ c.toNat ≠ 127 ∧ c.toNat ≠ 35 ∧
      c.toNat ≠ 37 ∧ c.toNat ≠ 63) :
    urlParse ⟨'h' :: 't' :: 't' :: 'p' :: 's' :: ':' :: '/' :: '/' ::
        (host ++ '/' :: tail3)⟩ =
      .ok ⟨"https", "", "", false, ⟨host⟩, ⟨'/' :: tail3⟩, "", "", false⟩ := by
  have h35 : containsC '#' ('h' :: 't' :: 't' :: 'p' :: 's' :: ':' :: '/' :: '/' ::
      (host ++ '/' :: tail3)) = false := by
    apply containsC_false_of_all
    intro x hx
    simp only [List.mem_cons, List.mem_append] at hx
    rcases hx with rfl | rfl | rfl | rfl | rfl | rfl | rfl | rfl | hx | rfl | hx
    · decide
    · decide
    · decide
    · decide
    · decide
    · decide
    · decide
    · decide
    · exact show x.toNat ≠ 35 from hostOK_ne (hh x hx) 35 (by omega)
    · decide
    · exact (ht x hx).2.2.1
  simp only [urlParse, cutChar_not_contains h35]
  rw [parseMain_https host tail3 hh ht]
  rfl

/-! ### Claim theorems -/

/-- C4 counterexample: the claim says an SSH-style URL with additional
colons is still resolved from the text after the first colon — on
`"git@host:a:b"` that would be `extractRepoName "a:b" = "a:b"` — but
`getRepoNameFromSSHURL` rejects any URL that does not split into exactly
two colon-separated parts. -/
theorem spec_c4_counterexample :
    getRepoNameFromSSHURL "git@host:a:b" =
      .error "invalid SSH URL format: git@host:a:b" ∧
    getRepoNameFromSSHURL "git@host:a:b" ≠ .ok (extractRepoName "a:b") := by
  constructor
  · decide
  · decide

/-- C4 (amended): SSH-style repo-name resolution splits the URL on every
colon and requires exactly two segments (exactly one colon); the segment
after that single colon is the path from which the repository name is
extracted.  URLs with additional colons are rejected. -/
theorem spec_c4_ssh_split (pre path : String)
    (h1 : containsC ':' pre.data = false)
    (h2 : containsC ':' path.data = false) :
    splitChar ':' (pre ++ ":" ++ path).data = [pre.data, path.data] ∧
    getRepoNameFromSSHURL (pre ++ ":" ++ path) = .ok (extractRepoName path) := by
  have hdata : (pre ++ ":" ++ path).data = pre.data ++ ':' :: path.data := by
    simp [data_append]
  have hsplit : splitChar ':' (pre ++ ":" ++ path).data = [pre.data, path.data] := by
    rw [hdata]
    exact splitChar_append2 h1 h2
  refine ⟨hsplit, ?_⟩
  rw [getRepoNameFromSSHURL, hsplit]
  simp [extractRepoName]

/-- C4 witness. -/
theorem spec_c4_ssh_split_witness :
    splitChar ':' ("git@host" ++ ":" ++ "group/repo.git").data =
      ["git@host".data, "group/repo.git".data] ∧
    getRepoNameFromSSHURL ("git@host" ++ ":" ++ "group/repo.git") =
      .ok (extractRepoName "group/repo.git") :=
  spec_c4_ssh_split "git@host" "group/repo.git" (by decide) (by decide)

/-- C5: every remote URL of the form `git@host:group/repo.git` resolves to
`repo` — the final slash-delimited segment of the path after the colon with
the `.git` suffix stripped. -/
theorem spec_c5_ssh_form (host group repo : String)
    (h1 : containsC ':' host.data = false)
    (h2 : containsC ':' group.data = false)
    (h3 : containsC ':' repo.data = false)
    (h4 : containsC '/' repo.data = false) :
    getRepoNameFromURL ("git@" ++ host ++ ":" ++ group ++ "/" ++ repo ++ ".git") =
      .ok repo := by
  have hdata : ("git@" ++ host ++ ":" ++ group ++ "/" ++ repo ++ ".git").data =
      ("git@".data ++ host.data) ++
        ':' :: (group.data ++ '/' :: (repo.data ++ ".git".data)) := by
    simp [data_append]
  have ha : containsC ':' ("git@".data ++ host.data) = false := by
    rw [containsC_append, h1]
    decide
  have hb : containsC ':' (group.data ++ '/' :: (repo.data ++ ".git".data)) = false := by
    rw [containsC_append, h2]
    simp only [containsC, containsC_append, h3, Bool.false_or]
    decide
  have hssh : isSSHURL ("git@" ++ host ++ ":" ++ group ++ "/" ++ repo ++ ".git") = true := by
    rw [isSSHURL, hdata]
    have hre : (("git@".data ++ host.data) ++
        ':' :: (group.data ++ '/' :: (repo.data ++ ".git".data))) =
        "git@".data ++ (host.data ++
          ':' :: (group.data ++ '/' :: (repo.data ++ ".git".data))) := by
      simp
    rw [hre]
    exact hasPrefixL_append _ _
  have hb' : containsC '/' (repo.data ++ ".git".data) = false := by
    rw [containsC_append, h4]
    decide
  rw [getRepoNameFromURL, if_pos hssh]
  rw [getRepoNameFromSSHURL]
  simp only [hdata, splitChar_append2 ha hb]
  rw [if_neg (by simp)]
  have hgd : ([("git@".data ++ host.data),
      (group.data ++ '/' :: (repo.data ++ ".git".data))] : List (List Char)).getD 1 [] =
      group.data ++ '/' :: (repo.data ++ ".git".data) := rfl
  rw [hgd, extractRepoName_mk, lastPart_splitChar group.data hb', trimSuffixL_append]

/-- C5 witness. -/
theorem spec_c5_ssh_form_witness :
    getRepoNameFromURL ("git@" ++ "github.com" ++ ":" ++ "gkwa" ++ "/" ++
      "everyonenorth" ++ ".git") = .ok "everyonenorth" :=
  spec_c5_ssh_form "github.com" "gkwa" "everyonenorth"
    (by decide) (by decide) (by decide) (by decide)

/-- C10: a remote URL is classified SSH-style exactly when it begins with
the literal `"git@"`; every other URL is resolved through `net/url` parsing,
whose outcome decides success (e.g. `ssh://git@host/group/repo.git`
resolves to `"repo"`) or failure (e.g. `alice@host:path` is a parse
error). -/
theorem spec_c10_classification :
    (∀ u : String, isSSHURL u = true ↔ ∃ r, u.data = 'g' :: 'i' :: 't' :: '@' :: r) ∧
    (∀ u : String, getRepoNameFromURL u =
      if isSSHURL u then getRepoNameFromSSHURL u else getRepoNameFromHTTPSURL u) ∧
    getRepoNameFromURL "ssh://git@host/group/repo.git" = .ok "repo" ∧
    (getRepoNameFromURL "alice@host:path").isOk = false := by
  refine ⟨?_, fun u => rfl, by decide, by decide⟩
  intro u
  constructor
  · intro h
    obtain ⟨r, hr⟩ := hasPrefixL_exists (show hasPrefixL u.data ("git@".data) = true from h)
    exact ⟨r, by simpa using hr⟩
  · rintro ⟨r, hr⟩
    rw [isSSHURL, hr]
    exact hasPrefixL_append ("git@".data) r

/-- C6: every remote URL of the standard form `https://host/group/repo.git`
resolves to `repo`, the trailing `.git` being stripped; the same URL without
the `.git` suffix resolves to the raw final path segment. -/
theorem spec_c6_https_form (host group repo : String)
    (hh : ∀ c ∈ host.data, hostOK c = true)
    (hg : ∀ c ∈ group.data, segOK c = true)
    (hr : ∀ c ∈ repo.data, segOK c = true)
    (hng : hasSuffixL repo.data (".git".data) = false) :
    getRepoNameFromURL ("https://" ++ host ++ "/" ++ group ++ "/" ++ repo ++ ".git") =
      .ok repo ∧
    getRepoNameFromURL ("https://" ++ host ++ "/" ++ group ++ "/" ++ repo) =
      .ok repo := by
  have hseg : ∀ {c : Char}, segOK c = true →
      31 < c.toNat ∧ c.toNat ≠ 127 ∧ c.toNat ≠ 35 ∧ c.toNat ≠ 37 ∧ c.toNat ≠ 63 := by
    intro c h
    have := segOK_toNat h
    omega
  have hr47 : containsC '/' repo.data = false :=
    containsC_false_of_all fun x hx =>
      show x.toNat ≠ 47 from by have := segOK_toNat (hr x hx); omega
  have hlit : "https://".data = ['h', 't', 't', 'p', 's', ':', '/', '/'] := rfl
  have hsl : "/".data = ['/'] := rfl
  have hgit : (".git".data : List Char) = ['.', 'g', 'i', 't'] := rfl
  constructor
  · -- with the ".git" suffix
    have ht1 : ∀ c ∈ (group.data ++ '/' :: (repo.data ++ ".git".data) : List Char),
        31 < c.toNat ∧ c.toNat ≠ 127 ∧ c.toNat ≠ 35 ∧ c.toNat ≠ 37 ∧ c.toNat ≠ 63 := by
      intro c hc
      simp only [List.mem_append, List.mem_cons, hgit] at hc
      rcases hc with hc | rfl | hc | hc
      · exact hseg (hg c hc)
      · decide
      · exact hseg (hr c hc)
      · rcases hc with rfl | rfl | rfl | rfl | hc
        · decide
        · decide
        · decide
        · decide
        · cases hc
    have hdata1 : ("https://" ++ host ++ "/" ++ group ++ "/" ++ repo ++ ".git").data =
        'h' :: 't' :: 't' :: 'p' :: 's' :: ':' :: '/' :: '/' ::
          (host.data ++ '/' :: (group.data ++ '/' :: (repo.data ++ ".git".data))) := by
      simp only [data_append, hlit, hsl, List.cons_append, List.nil_append,
        List.append_assoc]
    have hu : ("https://" ++ host ++ "/" ++ group ++ "/" ++ repo ++ ".git") =
        (⟨'h' :: 't' :: 't' :: 'p' :: 's' :: ':' :: '/' :: '/' ::
          (host.data ++ '/' :: (group.data ++ '/' :: (repo.data ++ ".git".data)))⟩ :
            String) :=
      strExt hdata1
    have hnossh :
        isSSHURL ("https://" ++ host ++ "/" ++ group ++ "/" ++ repo ++ ".git") = false := by
      rw [isSSHURL, hdata1]
      have hgch : ('h'.toNat == 'g'.toNat) = false := by decide
      simp [hasPrefixL, hgch]
    have hup : urlParse ("https://" ++ host ++ "/" ++ group ++ "/" ++ repo ++ ".git") =
        .ok ⟨"https", "", "", false, ⟨host.data⟩,
          ⟨'/' :: (group.data ++ '/' :: (repo.data ++ ".git".data))⟩, "", "", false⟩ := by
      rw [hu]
      exact urlParse_https host.data (group.data ++ '/' :: (repo.data ++ ".git".data)) hh ht1
    rw [getRepoNameFromURL, if_neg (by simp [hnossh])]
    rw [getRepoNameFromHTTPSURL]
    simp only [hup]
    have hb' : containsC '/' (repo.data ++ ".git".data) = false := by
      rw [containsC_append, hr47]
      decide
    have hsplit : ('/' :: (group.data ++ '/' :: (repo.data ++ ".git".data)) : List Char) =
        ('/' :: group.data) ++ '/' :: (repo.data ++ ".git".data) := by
      simp
    rw [extractRepoName_mk, hsplit, lastPart_splitChar ('/' :: group.data) hb',
      trimSuffixL_append]
  · -- without the ".git" suffix
    have ht2 : ∀ c ∈ (group.data ++ '/' :: repo.data : List Char),
        31 < c.toNat ∧ c.toNat ≠ 127 ∧ c.toNat ≠ 35 ∧ c.toNat ≠ 37 ∧ c.toNat ≠ 63 := by
      intro c hc
      simp only [List.mem_append, List.mem_cons] at hc
      rcases hc with hc | rfl | hc
      · exact hseg (hg c hc)
      · decide
      · exact hseg (hr c hc)
    have hdata2 : ("https://" ++ host ++ "/" ++ group ++ "/" ++ repo).data =
        'h' :: 't' :: 't' :: 'p' :: 's' :: ':' :: '/' :: '/' ::
          (host.data ++ '/' :: (group.data ++ '/' :: repo.data)) := by
      simp only [data_append, hlit, hsl, List.cons_append, List.nil_append,
        List.append_assoc]
    have hu : ("https://" ++ host ++ "/" ++ group ++ "/" ++ repo) =
        (⟨'h' :: 't' :: 't' :: 'p' :: 's' :: ':' :: '/' :: '/' ::
          (host.data ++ '/' :: (group.data ++ '/' :: repo.data))⟩ : String) :=
      strExt hdata2
    have hnossh :
        isSSHURL ("https://" ++ host ++ "/" ++ group ++ "/" ++ repo) = false := by
      rw [isSSHURL, hdata2]
      have hgch : ('h'.toNat == 'g'.toNat) = false := by decide
      simp [hasPrefixL, hgch]
    have hup : urlParse ("https://" ++ host ++ "/" ++ group ++ "/" ++ repo) =
        .ok ⟨"https", "", "", false, ⟨host.data⟩,
          ⟨'/' :: (group.data ++ '/' :: repo.data)⟩, "", "", false⟩ := by
      rw [hu]
      exact urlParse_https host.data (group.data ++ '/' :: repo.data) hh ht2
    rw [getRepoNameFromURL, if_neg (by simp [hnossh])]
    rw [getRepoNameFromHTTPSURL]
    simp only [hup]
    have hsplit : ('/' :: (group.data ++ '/' :: repo.data) : List Char) =
        ('/' :: group.data) ++ '/' :: repo.data := by
      simp
    rw [extractRepoName_mk, hsplit, lastPart_splitChar ('/' :: group.data) hr47,
      trimSuffixL_no_suffix hng]

/-- C6 witness. -/
theorem spec_c6_https_form_witness :
    getRepoNameFromURL ("https://" ++ "github.com" ++ "/" ++ "gkwa" ++ "/" ++
      "everyonenorth" ++ ".git") = .ok "everyonenorth" ∧
    getRepoNameFromURL ("https://" ++ "github.com" ++ "/" ++ "gkwa" ++ "/" ++
      "everyonenorth") = .ok "everyonenorth" :=
  spec_c6_https_form "github.com" "gkwa" "everyonenorth"
    (by decide) (by decide) (by decide) (by decide)

theorem filterMap_parse (lines : List String) :
    lines.filterMap (fun line =>
      match goFields line with
      | f0 :: f1 :: rest => some (⟨joinSpace (f1 :: rest), f0, "", ""⟩ : Author)
      | _ => none) =
    (lines.filter fun l => decide (2 ≤ (goFields l).length)).map
      fun l => ⟨joinSpace ((goFields l).drop 1), (goFields l).headD "", "", ""⟩ := by
  induction lines with
  | nil => rfl
  | cons l ls ih =>
    simp only [List.filterMap_cons, List.filter_cons]
    cases hf : goFields l with
    | nil => simp [hf, ih]
    | cons f0 t =>
      cases t with
      | nil => simp [hf, ih]
      | cons f1 rest => simp [hf, ih]

/-- C2: the Summary Parser never fails; it produces exactly one record per
line with at least two whitespace-delimited tokens, in source order, with
the commit count the first token and the name the remaining tokens rejoined
with single spaces; lines with fewer tokens are dropped, tab-separated input
parses as specified, embedded space runs are normalised, and an input with
no valid line yields the empty sequence. -/
theorem spec_c2_summary_parsing :
    (∀ output : String,
      parseLogOutput output =
        .ok (((splitLines output).filter fun l =>
            decide (2 ≤ (goFields l).length)).map
          fun l => ⟨joinSpace ((goFields l).drop 1), (goFields l).headD "", "", ""⟩)) ∧
    parseLogOutput "42\tAda Lovelace\n7\tGrace Hopper\n" =
      .ok [⟨"Ada Lovelace", "42", "", ""⟩, ⟨"Grace Hopper", "7", "", ""⟩] ∧
    parseLogOutput "3  Ada   Lovelace\n" = .ok [⟨"Ada Lovelace", "3", "", ""⟩] ∧
    parseLogOutput "onlyone\n\n" = .ok [] := by
  refine ⟨?_, by decide, by decide, by decide⟩
  intro output
  rw [parseLogOutput, filterMap_parse]

theorem valuesEncode_pair (s : String) :
    valuesEncode [("tbm", ["isch"]), ("q", [s])] =
      "q=" ++ queryEscape s ++ "&tbm=isch" := by
  have hsort : sortStrings ["tbm", "q"] = ["q", "tbm"] := by decide
  have e1 : (("tbm" : String) == "q") = false := by decide
  have e2 : (("q" : String) == "q") = true := by decide
  have e3 : (("tbm" : String) == "tbm") = true := by decide
  have hq : queryEscape "q" = "q" := by decide
  have htbm : queryEscape "tbm" = "tbm" := by decide
  have hisch : queryEscape "isch" = "isch" := by decide
  have hget1 : valuesGet [("tbm", ["isch"]), ("q", [s])] "q" = [s] := by
    simp [valuesGet, List.find?, e1, e2]
  have hget2 : valuesGet [("tbm", ["isch"]), ("q", [s])] "tbm" = ["isch"] := by
    simp [valuesGet, List.find?, e3]
  rw [valuesEncode]
  rw [show (List.map Prod.fst
      [(("tbm" : String), (["isch"] : List String)), ("q", [s])]) = ["tbm", "q"]
    from rfl]
  rw [hsort]
  simp only [List.flatMap_cons, List.flatMap_nil, hget1, hget2, encodeKV,
    List.append_nil, hq, htbm, hisch, joinAmp]
  apply strExt
  have d1 : ("q" : String).data = ['q'] := rfl
  have d2 : ("=" : String).data = ['='] := rfl
  have d3 : ("&" : String).data = ['&'] := rfl
  have d4 : ("tbm=isch" : String).data = ['t', 'b', 'm', '=', 'i', 's', 'c', 'h'] := rfl
  have d5 : ("q=" : String).data = ['q', '='] := rfl
  have d6 : ("&tbm=isch" : String).data =
      ['&', 't', 'b', 'm', '=', 'i', 's', 'c', 'h'] := rfl
  have d7 : ("tbm" : String).data = ['t', 'b', 'm'] := rfl
  have d8 : ("isch" : String).data = ['i', 's', 'c', 'h'] := rfl
  simp [data_append, d1, d2, d3, d4, d5, d6, d7, d8]

/-- C1: for every author record the Link Synthesizer produces the URL
obtained by appending to the fixed base endpoint a query string holding
exactly the two parameters `q` (the name, a space and the repo name,
query-encoded) and `tbm=isch`, with `q` emitted before `tbm` (alphabetical
key order); the function is a total pure function.  For repoName `"widget"`
and name `"Ada Lovelace"` the URL is the expected one, and its query string
decodes back to `q = "Ada Lovelace widget"` and `tbm = "isch"`. -/
theorem spec_c1_link_synthesizer :
    (∀ (authors : List Author) (repoName : String),
      (generateSearchURLs authors repoName).map Author.SearchURL =
        authors.map fun a =>
          "https://www.google.com/search" ++ "?" ++
            ("q=" ++ queryEscape (a.Name ++ " " ++ repoName) ++ "&tbm=isch")) ∧
    (generateSearchURLs [⟨"Ada Lovelace", "42", "", ""⟩] "widget").map
        Author.SearchURL =
      ["https://www.google.com/search?q=Ada+Lovelace+widget&tbm=isch"] ∧
    parseQuery "q=Ada+Lovelace+widget&tbm=isch" =
      .ok [("q", "Ada Lovelace widget"), ("tbm", "isch")] := by
  refine ⟨?_, by decide, by decide⟩
  intro authors repoName
  rw [generateSearchURLs, List.map_map]
  apply List.map_congr_left
  intro a _
  show "https://www.google.com/search" ++ "?" ++
      valuesEncode [("tbm", ["isch"]), ("q", [a.Name ++ " " ++ repoName])] =
    "https://www.google.com/search" ++ "?" ++
      ("q=" ++ queryEscape (a.Name ++ " " ++ repoName) ++ "&tbm=isch")
  rw [valuesEncode_pair]

/-- C9: the Link Synthesizer preserves the length and order of the record
sequence, leaves every record's name and commit count unchanged, and
populates `RepoName` and `SearchURL` together on every record. -/
theorem spec_c9_synthesizer_frame :
    ∀ (authors : List Author) (repoName : String),
      (generateSearchURLs authors repoName).length = authors.length ∧
      (generateSearchURLs authors repoName).map Author.Name =
        authors.map Author.Name ∧
      (generateSearchURLs authors repoName).map Author.CommitCount =
        authors.map Author.CommitCount ∧
      (generateSearchURLs authors repoName).map Author.RepoName =
        authors.map (fun _ => repoName) ∧
      (generateSearchURLs authors repoName).map Author.SearchURL =
        authors.map (fun a => "https://www.google.com/search" ++ "?" ++
          valuesEncode [("tbm", ["isch"]), ("q", [a.Name ++ " " ++ repoName])]) := by
  intro authors repoName
  refine ⟨by simp [generateSearchURLs], ?_, ?_, ?_, ?_⟩
  all_goals
    rw [generateSearchURLs, List.map_map]
    apply List.map_congr_left
    intro a _
    rfl

theorem writeAuthors_all_ok (render : Author → String) (authors : List Author)
    (st : WState) (h : st.oracle = []) :
    writeAuthors render authors st =
      (⟨[], st.written ++ renderedReport render authors, st.failedWrites⟩, none) := by
  induction authors generalizing st with
  | nil =>
    obtain ⟨o, w, f⟩ := st
    subst h
    simp [writeAuthors, renderedReport, strAppend_nil]
  | cons a rest ih =>
    obtain ⟨o, w, f⟩ := st
    subst h
    simp only [writeAuthors, doWrite]
    rw [ih ⟨[], (w ++ render a) ++ "\n", f⟩ rfl]
    simp only [renderedReport, strAppend_assoc]

/-- C3: with every write succeeding, the Report Writer produces exactly one
rendered fragment per record, in input order, each followed by exactly one
newline; the file is truncated on creation, so the result does not depend
on the previous file contents (a second run fully overwrites the first). -/
theorem spec_c3_report_writer :
    ∀ (render : Author → String) (authors : List Author) (fs₀ : Option String),
      writeMarkdownFile render true [] authors fs₀ =
        ⟨some (renderedReport render authors), .ok (), 0⟩ := by
  intro render authors fs₀
  rw [writeMarkdownFile]
  rw [writeAuthors_all_ok render authors ⟨[], "", 0⟩ rfl]
  simp [doWrite, strAppend_nil, strNil_append]

/-- C8: the Report Writer does fail when the file cannot be created and when
a render or per-record newline write reports an error; but a write failure
surfacing only at the final `writer.Flush()` is silently discarded
(core.go line 130): the call reports success (`failedWrites = 1` yet the
result is `.ok`), contradicting the claim that a write failure is never
swallowed. -/
theorem spec_c8_flush_error_swallowed :
    (writeMarkdownFile (fun a => "- " ++ a.Name) false []
      [⟨"Ada Lovelace", "42", "widget", "u"⟩] (some "old")).result =
        .error "error creating file" ∧
    (writeMarkdownFile (fun a => "- " ++ a.Name) true [true]
      [⟨"Ada Lovelace", "42", "widget", "u"⟩] none).result =
        .error "error executing template" ∧
    (writeMarkdownFile (fun a => "- " ++ a.Name) true [false, true]
      [⟨"Ada Lovelace", "42", "widget", "u"⟩] none).result =
        .error "cannot write newline to file" ∧
    (writeMarkdownFile (fun a => "- " ++ a.Name) true [false, false, true]
      [⟨"Ada Lovelace", "42", "widget", "u"⟩] none) =
      ⟨some "- Ada Lovelace\n", .ok (), 1⟩ := by
  exact ⟨by decide, by decide, by decide, by decide⟩

/-- C7: whenever any of the three external command invocations fails — the
remote-URL query, the branch query or the shortlog — the run returns before
the output file is created or written: the file system is untouched and the
writer is never reached. -/
theorem spec_c7_abort_on_command_failure (env : Env) (render : Author → String)
    (fs₀ : Option String)
    (h : env.repoURLCmd.isOk = false ∨ env.branchCmd.isOk = false ∨
      env.shortlogCmd.isOk = false) :
    Run env render fs₀ = ⟨fs₀, false, false⟩ := by
  obtain ⟨r, b, s, c, o⟩ := env
  cases r with
  | error e => simp [Run]
  | ok rv =>
    cases hg : getRepoNameFromURL (trimSpace rv) with
    | error e2 => simp [Run, hg]
    | ok rn =>
      cases b with
      | error e3 => simp [Run, hg]
      | ok bv =>
        cases s with
        | error e4 => simp [Run, hg]
        | ok sv => simp [Except.isOk, Except.toBool] at h

/-- C7 witness. -/
theorem spec_c7_abort_witness :
    Run ⟨.ok "git@github.com:gkwa/everyonenorth.git", .error "exit status 128",
        .ok "", true, []⟩ (fun a => a.Name) (some "stale") =
      ⟨some "stale", false, false⟩ :=
  spec_c7_abort_on_command_failure _ _ _ (Or.inr (Or.inl rfl))

end EveryoneNorth
